import Mathlib

/-!
# Verification of the association-rule mining core

Shallow embedding of `server/src/handlers/mining.ts` (frequent-itemset
mining with an Apriori strategy and a frequency-ordered FP-Growth-style
strategy, association-rule generation, and the comparison engine) together
with the parameter-validation boundary (`miningParametersSchema`).

Modelling conventions:
* item identifiers are Lean `String`s; the JavaScript default array sort
  (UTF-16 lexicographic) is modelled by `List.insertionSort (· ≤ ·)` over
  the `String` linear order, which agrees on the item names used here;
* the JavaScript `Map` (insertion-ordered, update-in-place) is modelled by
  an association list `List (K × Nat)` with the update function `bump`;
* the source serialises a sorted candidate as `candidate.sort().join(',')`
  and deserialises it with `split(',')`; the embedding uses the sorted
  list itself as the map key, which is the same data for comma-free
  identifiers;
* floating-point supports, confidences and lifts are modelled as
  rationals (`ℚ`), with exact arithmetic in place of IEEE doubles;
* the `while (candidates.length > 0 && k <= 3)` loop of
  `aprioriAlgorithm` is unrolled for k = 2 and k = 3: a level computed
  from an empty candidate list is empty and contributes nothing to the
  concatenation, so the unconditional unrolling equals the guarded loop;
* wall-clock timing (`Date.now()`) and database persistence are external
  effects: the comparison engine is embedded as a pure function of the
  two already-produced mining results, whose `execution_time_ms` fields
  are inputs.
-/

namespace Mining

/-- Item identifiers (the source uses item-name strings). -/
abbrev Item := String

/-- JavaScript default array sort on strings, `array.sort()`. -/
def sortS (l : List Item) : List Item := l.insertionSort (· ≤ ·)

/-- The double loop `for i ...; for j = i+1 ...` enumerating ordered pairs
of positions `i < j` of a list, in source order. -/
def allPairs {α : Type} : List α → List (α × α)
  | [] => []
  | x :: xs => xs.map (fun y => (x, y)) ++ allPairs xs

/-- `FrequentItemset` of `schema.ts`: an itemset with its support fraction
and absolute basket count. -/
structure FrequentItemset where
  itemset : List Item
  support : ℚ
  count : Nat
deriving Repr, DecidableEq

/-- `AssociationRule` of `schema.ts`. -/
structure AssociationRule where
  antecedent : List Item
  consequent : List Item
  support : ℚ
  confidence : ℚ
  lift : ℚ
deriving Repr, DecidableEq

/-- `map.set(k, (map.get(k) || 0) + 1)` on a JavaScript `Map`: update the
entry in place if the key is present, otherwise append it. -/
def bump {K : Type} [DecidableEq K] : List (K × Nat) → K → List (K × Nat)
  | [], k => [(k, 1)]
  | (k', c) :: m, k => if k' = k then (k', c + 1) :: m else (k', c) :: bump m k

/-- The `itemCounts` map of both miners: occurrences of every item across
all transactions, in first-occurrence order. -/
def itemCounts (ts : List (List Item)) : List (Item × Nat) :=
  ts.foldl (fun m t => t.foldl (fun m' i => bump m' i) m) []

/-- Number of transactions containing every item of `c`
(`transactions.filter(t => c.every(i => t.includes(i))).length`). -/
def countContaining (ts : List (List Item)) (c : List Item) : Nat :=
  (ts.filter (fun t => c.all (fun i => decide (i ∈ t)))).length

/-- The `candidateCounts` map of the Apriori level-`k` scan: for each
transaction and each candidate contained in it, bump the key
`candidate.sort()`. -/
def candidateCounts (ts : List (List Item)) (cands : List (List Item)) :
    List (List Item × Nat) :=
  ts.foldl
    (fun m t =>
      cands.foldl
        (fun m' c => if c.all (fun i => decide (i ∈ t)) then bump m' (sortS c) else m') m)
    []

/-- `generateCandidates` of `mining.ts`: join two frequent (k−1)-itemsets
whose first k−2 sorted elements agree, appending the second one's last
element and sorting.  `(sortS i2).drop ((sortS i2).length - 1)` is the
one-element list holding `itemset2[itemset2.length - 1]`. -/
def generateCandidates (fis : List (List Item)) (k : Nat) : List (List Item) :=
  (allPairs fis).filterMap (fun p =>
    let s1 := sortS p.1
    let s2 := sortS p.2
    if s1.take (k - 2) = s2.take (k - 2) then
      some (sortS (s1 ++ s2.drop (s2.length - 1)))
    else none)

/-- `Math.ceil(minSupport * totalTransactions)`. -/
def minSupportCount (minSupport : ℚ) (total : Nat) : ℤ := ⌈minSupport * total⌉

/-- The frequent 1-itemsets of the Apriori miner: entries of `itemCounts`
meeting the support count, in map order. -/
def level1 (ts : List (List Item)) (msc : ℤ) (total : Nat) : List FrequentItemset :=
  (itemCounts ts).filterMap (fun p =>
    if msc ≤ (p.2 : ℤ) then some ⟨[p.1], (p.2 : ℚ) / total, p.2⟩ else none)

/-- One level of the Apriori loop body: scan the candidates, keep the map
entries meeting the support count. -/
def levelK (ts : List (List Item)) (msc : ℤ) (total : Nat)
    (cands : List (List Item)) : List FrequentItemset :=
  (candidateCounts ts cands).filterMap (fun p =>
    if msc ≤ (p.2 : ℤ) then some ⟨p.1, (p.2 : ℚ) / total, p.2⟩ else none)

/-- `aprioriAlgorithm` of `mining.ts`, with the k ≤ 3 bounded loop
unrolled (levels built from empty candidate lists are empty, so the
unconditional concatenation equals the guarded while loop). -/
def aprioriAlgorithm (ts : List (List Item)) (minSupport : ℚ) : List FrequentItemset :=
  let total := ts.length
  let msc := minSupportCount minSupport total
  let f1 := level1 ts msc total
  let c2 := generateCandidates (f1.map FrequentItemset.itemset) 2
  let f2 := levelK ts msc total c2
  let c3 := generateCandidates (f2.map FrequentItemset.itemset) 3
  let f3 := levelK ts msc total c3
  f1 ++ f2 ++ f3

/-- `fpGrowthAlgorithm` of `mining.ts`: sort the item counts by descending
frequency (`(a, b) => b[1] - a[1]`), keep those meeting the support count,
emit the frequent singletons, then scan every pair of frequent items. -/
def fpGrowthAlgorithm (ts : List (List Item)) (minSupport : ℚ) : List FrequentItemset :=
  let total := ts.length
  let msc := minSupportCount minSupport total
  let sortedItems := ((itemCounts ts).insertionSort (fun a b => b.2 ≤ a.2)).filter
    (fun p => decide (msc ≤ (p.2 : ℤ)))
  let singles : List FrequentItemset :=
    sortedItems.map (fun p => ⟨[p.1], (p.2 : ℚ) / total, p.2⟩)
  let freqItems := sortedItems.map Prod.fst
  let pairs : List FrequentItemset :=
    (allPairs freqItems).filterMap (fun p =>
      let c := countContaining ts [p.1, p.2]
      if msc ≤ (c : ℤ) then some ⟨sortS [p.1, p.2], (c : ℚ) / total, c⟩ else none)
  singles ++ pairs

/-- The bitmask split of the rule generator: the j-th member of the
itemset goes to the antecedent when bit j of `i` is set, to the
consequent otherwise, preserving member order. -/
def maskSplit : List Item → Nat → List Item × List Item
  | [], _ => ([], [])
  | x :: xs, i =>
    let p := maskSplit xs (i / 2)
    if i % 2 = 1 then (x :: p.1, p.2) else (p.1, x :: p.2)

/-- The inner loop of `generateAssociationRules` for one frequent itemset:
masks `i = 1 .. 2^n − 2`, skipping empty sides, computing the antecedent
support by full basket scan and keeping splits meeting `minConfidence`. -/
def rulesForItemset (it : FrequentItemset) (minConfidence : ℚ)
    (ts : List (List Item)) : List AssociationRule :=
  let total := ts.length
  ((List.range (2 ^ it.itemset.length - 1)).drop 1).filterMap (fun i =>
    let p := maskSplit it.itemset i
    if p.1 = [] ∨ p.2 = [] then none
    else
      let antecedentCount := countContaining ts p.1
      let antecedentSupport := (antecedentCount : ℚ) / total
      let confidence := it.support / antecedentSupport
      if minConfidence ≤ confidence then
        some ⟨sortS p.1, sortS p.2, it.support, confidence,
              confidence / ((it.count : ℚ) / total)⟩
      else none)

/-- `generateAssociationRules` of `mining.ts`: rules from every frequent
itemset with at least two members. -/
def generateAssociationRules (fis : List FrequentItemset) (minConfidence : ℚ)
    (ts : List (List Item)) : List AssociationRule :=
  (fis.filter (fun it => decide (2 ≤ it.itemset.length))).flatMap
    (fun it => rulesForItemset it minConfidence ts)

/-- `z.number().min(0).max(1)` of `miningParametersSchema`: the range
check applied to each numeric parameter at the tRPC input boundary. -/
def validNumber01 (x : ℚ) : Bool := decide (0 ≤ x) && decide (x ≤ 1)

/-- `miningParametersSchema`'s validation of the two numeric mining
parameters: both must pass the `min(0).max(1)` range check before any
mining handler is entered. -/
def miningParametersValid (minSupport minConfidence : ℚ) : Bool :=
  validNumber01 minSupport && validNumber01 minConfidence

/-- The `algorithm` enum of `schema.ts`. -/
inductive MiningAlgorithm where
  | apriori
  | fp_growth
deriving Repr, DecidableEq

/-- The part of a `MiningResult` that the comparison engine reads: the two
lists produced by one orchestrated run and its measured wall-clock
duration (timing is an external effect, supplied as an input here). -/
structure MiningResultCore where
  frequent_itemsets : List FrequentItemset
  association_rules : List AssociationRule
  execution_time_ms : Nat
deriving Repr, DecidableEq

/-- `comparison_metrics` of `MiningComparison`. -/
structure ComparisonMetrics where
  execution_time_difference : ℤ
  itemsets_count_difference : ℤ
  rules_count_difference : ℤ
  faster_algorithm : MiningAlgorithm
deriving Repr, DecidableEq

/-- `MiningComparison` as returned by `compareMiningResults`. -/
structure MiningComparison where
  apriori_result : MiningResultCore
  fp_growth_result : MiningResultCore
  comparison_metrics : ComparisonMetrics
deriving Repr, DecidableEq

/-- The metric computation of `compareMiningResults`, as a pure function
of the two underlying results. -/
def compareMiningResults (aprioriResult fpGrowthResult : MiningResultCore) :
    MiningComparison :=
  { apriori_result := aprioriResult
    fp_growth_result := fpGrowthResult
    comparison_metrics :=
      { execution_time_difference :=
          (fpGrowthResult.execution_time_ms : ℤ) - (aprioriResult.execution_time_ms : ℤ)
        itemsets_count_difference :=
          (fpGrowthResult.frequent_itemsets.length : ℤ) -
            (aprioriResult.frequent_itemsets.length : ℤ)
        rules_count_difference :=
          (fpGrowthResult.association_rules.length : ℤ) -
            (aprioriResult.association_rules.length : ℤ)
        faster_algorithm :=
          if aprioriResult.execution_time_ms < fpGrowthResult.execution_time_ms then
            MiningAlgorithm.apriori
          else MiningAlgorithm.fp_growth } }

/-! ## Association-list (JavaScript `Map`) infrastructure -/

/-- The keys of an association list, in map order. -/
def keysOf {K : Type} (m : List (K × Nat)) : List K := m.map Prod.fst

/-- The value stored at a key (0 when absent); with duplicate-free keys this
is the unique stored value. -/
def valAt {K : Type} [DecidableEq K] (m : List (K × Nat)) (k : K) : Nat :=
  ((m.filter (fun p => decide (p.1 = k))).map Prod.snd).sum

/-- Occurrence count of a key in a list, kept instance-stable by phrasing
it through `filter`. -/
def occs {A : Type} [DecidableEq A] (ks : List A) (a : A) : Nat :=
  (ks.filter (fun k => decide (k = a))).length

/-- The stream of keys bumped by the `candidateCounts` double loop, in
loop order. -/
def keyStream (ts : List (List Item)) (cands : List (List Item)) : List (List Item) :=
  ts.flatMap (fun t => (cands.filter (fun c => c.all (fun i => decide (i ∈ t)))).map sortS)

/-! Named views of the stages of the two miners (the let-bound
intermediate lists of `aprioriAlgorithm` and `fpGrowthAlgorithm`), used to
state lemmas about individual stages. -/

/-- The frequent 1-itemsets of an Apriori run. -/
def apF1 (ts : List (List Item)) (ms : ℚ) : List FrequentItemset :=
  level1 ts (minSupportCount ms ts.length) ts.length

/-- The level-2 candidates of an Apriori run. -/
def apC2 (ts : List (List Item)) (ms : ℚ) : List (List Item) :=
  generateCandidates ((apF1 ts ms).map FrequentItemset.itemset) 2

/-- The frequent 2-itemsets of an Apriori run. -/
def apF2 (ts : List (List Item)) (ms : ℚ) : List FrequentItemset :=
  levelK ts (minSupportCount ms ts.length) ts.length (apC2 ts ms)

/-- The level-3 candidates of an Apriori run. -/
def apC3 (ts : List (List Item)) (ms : ℚ) : List (List Item) :=
  generateCandidates ((apF2 ts ms).map FrequentItemset.itemset) 3

/-- The frequent 3-itemsets of an Apriori run. -/
def apF3 (ts : List (List Item)) (ms : ℚ) : List FrequentItemset :=
  levelK ts (minSupportCount ms ts.length) ts.length (apC3 ts ms)

/-- The frequent items of an Apriori run, in map order. -/
def apItems (ts : List (List Item)) (ms : ℚ) : List Item :=
  ((itemCounts ts).filter
    (fun p => decide (minSupportCount ms ts.length ≤ (p.2 : ℤ)))).map Prod.fst

/-- The `sortedItems` list of an FP-Growth run: item counts in descending
frequency order, filtered to the frequent ones. -/
def fpSortedItems (ts : List (List Item)) (ms : ℚ) : List (Item × Nat) :=
  ((itemCounts ts).insertionSort (fun a b => b.2 ≤ a.2)).filter
    (fun p => decide (minSupportCount ms ts.length ≤ (p.2 : ℤ)))

/-- The frequent singletons of an FP-Growth run. -/
def fpSingles (ts : List (List Item)) (ms : ℚ) : List FrequentItemset :=
  (fpSortedItems ts ms).map
    (fun p => ⟨[p.1], (p.2 : ℚ) / ts.length, p.2⟩)

/-- The function applied to a pair of frequent items by the level-2 scan
of either miner: support-count the pair, keep it if it meets the
threshold, emitting it sorted. -/
def fpPairFn (ts : List (List Item)) (msc : ℤ) (p : Item × Item) :
    Option FrequentItemset :=
  if msc ≤ (countContaining ts [p.1, p.2] : ℤ) then
    some ⟨sortS [p.1, p.2], (countContaining ts [p.1, p.2] : ℚ) / ts.length,
          countContaining ts [p.1, p.2]⟩
  else none

/-- The frequent pairs of an FP-Growth run. -/
def fpPairs (ts : List (List Item)) (ms : ℚ) : List FrequentItemset :=
  (allPairs ((fpSortedItems ts ms).map Prod.fst)).filterMap (fun p =>
    if minSupportCount ms ts.length ≤ (countContaining ts [p.1, p.2] : ℤ) then
      some ⟨sortS [p.1, p.2], (countContaining ts [p.1, p.2] : ℚ) / ts.length,
            countContaining ts [p.1, p.2]⟩
    else none)

section MapLemmas

variable {K : Type} [DecidableEq K]

theorem valAt_nil (k : K) : valAt ([] : List (K × Nat)) k = 0 := rfl

theorem valAt_cons (k' : K) (c : Nat) (m : List (K × Nat)) (k : K) :
    valAt ((k', c) :: m) k = (if k' = k then c else 0) + valAt m k := by
  by_cases h : k' = k <;> simp [valAt, List.filter_cons, h]

theorem keysOf_bump (m : List (K × Nat)) (k : K) :
    keysOf (bump m k) = if k ∈ keysOf m then keysOf m else keysOf m ++ [k] := by
  induction m with
  | nil => simp [bump, keysOf]
  | cons p m ih =>
    obtain ⟨k', c⟩ := p
    by_cases h : k' = k
    · simp [bump, keysOf, h]
    · simp only [bump, if_neg h, keysOf, List.map_cons] at ih ⊢
      rw [ih]
      by_cases hk : k ∈ m.map Prod.fst
      · simp [hk, Ne.symm h]
      · simp [hk, Ne.symm h]

theorem mem_keysOf_bump (m : List (K × Nat)) (k a : K) :
    a ∈ keysOf (bump m k) ↔ a ∈ keysOf m ∨ a = k := by
  rw [keysOf_bump]
  by_cases h : k ∈ keysOf m
  · simp only [if_pos h]
    constructor
    · exact Or.inl
    · rintro (ha | rfl)
      · exact ha
      · exact h
  · simp [if_neg h]

theorem nodup_keysOf_bump {m : List (K × Nat)} (h : (keysOf m).Nodup) (k : K) :
    (keysOf (bump m k)).Nodup := by
  rw [keysOf_bump]
  by_cases hk : k ∈ keysOf m
  · simpa [hk] using h
  · simp only [if_neg hk]
    exact List.Nodup.append h (List.nodup_singleton k) (by simpa using hk)

theorem valAt_bump (m : List (K × Nat)) (k a : K) :
    valAt (bump m k) a = valAt m a + if a = k then 1 else 0 := by
  induction m with
  | nil =>
    by_cases h : a = k
    · subst h; simp [bump, valAt_cons, valAt_nil]
    · simp [bump, valAt_cons, valAt_nil, h, Ne.symm h]
  | cons p m ih =>
    obtain ⟨k', c⟩ := p
    by_cases h : k' = k
    · subst h
      by_cases ha : k' = a
      · subst ha; simp [bump, valAt_cons]; omega
      · simp [bump, valAt_cons, ha, Ne.symm ha]
    · simp only [bump, if_neg h, valAt_cons, ih, Nat.add_assoc]

theorem occs_nil {A : Type} [DecidableEq A] (a : A) : occs [] a = 0 := rfl

theorem occs_cons {A : Type} [DecidableEq A] (k : A) (ks : List A) (a : A) :
    occs (k :: ks) a = (if k = a then 1 else 0) + occs ks a := by
  unfold occs
  rw [List.filter_cons]
  by_cases h : k = a <;> simp [h, Nat.add_comm]

theorem occs_append {A : Type} [DecidableEq A] (l1 l2 : List A) (a : A) :
    occs (l1 ++ l2) a = occs l1 a + occs l2 a := by
  simp [occs, List.filter_append]

theorem occs_eq_zero_of_not_mem {A : Type} [DecidableEq A] {ks : List A} {a : A}
    (h : a ∉ ks) : occs ks a = 0 := by
  unfold occs
  rw [List.filter_eq_nil_iff.mpr]
  · rfl
  · intro k hk
    simp only [decide_eq_true_eq]
    rintro rfl
    exact h hk

theorem one_le_occs_of_mem {A : Type} [DecidableEq A] {ks : List A} {a : A}
    (h : a ∈ ks) : 1 ≤ occs ks a := by
  unfold occs
  exact List.length_pos_of_mem (List.mem_filter.mpr ⟨h, by simp⟩)

theorem occs_of_nodup {A : Type} [DecidableEq A] {ks : List A} (h : ks.Nodup) (a : A) :
    occs ks a = if a ∈ ks then 1 else 0 := by
  induction ks with
  | nil => simp [occs_nil]
  | cons k ks ih =>
    rw [occs_cons, ih (List.nodup_cons.mp h).2]
    rcases List.nodup_cons.mp h with ⟨hk, _⟩
    by_cases hka : k = a
    · subst hka
      simp [hk]
    · simp only [if_neg hka, List.mem_cons]
      by_cases hm : a ∈ ks
      · simp [hm, Ne.symm hka]
      · simp [hm, Ne.symm hka]

theorem valAt_foldl_bump (ks : List K) (m : List (K × Nat)) (a : K) :
    valAt (ks.foldl bump m) a = valAt m a + occs ks a := by
  induction ks generalizing m with
  | nil => simp [occs_nil]
  | cons k ks ih =>
    simp only [List.foldl_cons, ih, valAt_bump, occs_cons]
    by_cases h : a = k
    · simp [h]; omega
    · simp [h, Ne.symm h]

theorem mem_keysOf_foldl_bump (ks : List K) (m : List (K × Nat)) (a : K) :
    a ∈ keysOf (ks.foldl bump m) ↔ a ∈ keysOf m ∨ a ∈ ks := by
  induction ks generalizing m with
  | nil => simp
  | cons k ks ih =>
    simp only [List.foldl_cons, ih, mem_keysOf_bump, List.mem_cons]
    tauto

theorem nodup_keysOf_foldl_bump (ks : List K) {m : List (K × Nat)}
    (h : (keysOf m).Nodup) : (keysOf (ks.foldl bump m)).Nodup := by
  induction ks generalizing m with
  | nil => exact h
  | cons k ks ih => exact ih (nodup_keysOf_bump h k)

theorem valAt_eq_zero_of_not_mem_keys {m : List (K × Nat)} {k : K}
    (h : k ∉ keysOf m) : valAt m k = 0 := by
  induction m with
  | nil => rfl
  | cons p m ih =>
    obtain ⟨k', c⟩ := p
    simp only [keysOf, List.map_cons, List.mem_cons] at h
    push_neg at h
    rw [valAt_cons, if_neg (Ne.symm h.1), ih (by simpa [keysOf] using h.2)]

theorem valAt_eq_of_mem {m : List (K × Nat)} (hnd : (keysOf m).Nodup)
    {p : K × Nat} (h : p ∈ m) : p.2 = valAt m p.1 := by
  induction m with
  | nil => cases h
  | cons q m ih =>
    obtain ⟨k', c⟩ := q
    simp only [keysOf, List.map_cons, List.nodup_cons] at hnd
    rcases List.mem_cons.mp h with rfl | hm
    · rw [valAt_cons, if_pos rfl,
        valAt_eq_zero_of_not_mem_keys (by simpa [keysOf] using hnd.1)]
      simp
    · have hk : k' ≠ p.1 := by
        rintro rfl
        exact hnd.1 (List.mem_map.mpr ⟨p, hm, rfl⟩)
      rw [valAt_cons, if_neg hk, Nat.zero_add]
      exact ih (by simpa [keysOf] using hnd.2) hm

theorem mem_of_mem_keys {m : List (K × Nat)} (hnd : (keysOf m).Nodup)
    {k : K} (h : k ∈ keysOf m) : (k, valAt m k) ∈ m := by
  induction m with
  | nil => cases h
  | cons q m ih =>
    obtain ⟨k', c⟩ := q
    simp only [keysOf, List.map_cons, List.nodup_cons] at hnd
    rcases List.mem_cons.mp h with rfl | hm
    · rw [valAt_cons, if_pos rfl,
        valAt_eq_zero_of_not_mem_keys (by simpa [keysOf] using hnd.1)]
      exact List.mem_cons_self _ _
    · have hk : k' ≠ k := by
        rintro rfl
        exact hnd.1 hm
      rw [valAt_cons, if_neg hk, Nat.zero_add]
      exact List.mem_cons_of_mem _ (ih (by simpa [keysOf] using hnd.2) hm)

end MapLemmas

/-! ## Characterising the two count maps -/

theorem itemCounts_eq_foldl (ts : List (List Item)) :
    itemCounts ts = ts.flatten.foldl bump [] := by
  suffices h : ∀ m, ts.foldl (fun m t => t.foldl (fun m' i => bump m' i) m) m
      = ts.flatten.foldl bump m from h []
  induction ts with
  | nil => intro m; rfl
  | cons t ts ih =>
    intro m
    simp only [List.foldl_cons, List.flatten_cons, List.foldl_append]
    exact ih _

theorem foldl_condBump (cands : List (List Item)) (P : List Item → Bool)
    (m : List (List Item × Nat)) :
    cands.foldl (fun m' c => if P c then bump m' (sortS c) else m') m
      = ((cands.filter P).map sortS).foldl bump m := by
  induction cands generalizing m with
  | nil => rfl
  | cons c cs ih =>
    by_cases h : P c <;> simp [List.filter_cons, h, ih]

theorem candidateCounts_eq_foldl (ts cands : List (List Item)) :
    candidateCounts ts cands = (keyStream ts cands).foldl bump [] := by
  suffices h : ∀ m, ts.foldl
      (fun m t => cands.foldl
        (fun m' c => if c.all (fun i => decide (i ∈ t)) then bump m' (sortS c) else m') m) m
      = (keyStream ts cands).foldl bump m from h []
  induction ts with
  | nil => intro m; rfl
  | cons t ts ih =>
    intro m
    simp only [List.foldl_cons, keyStream, List.flatMap_cons, List.foldl_append]
    rw [foldl_condBump]
    exact ih _

theorem countContaining_cons (t : List Item) (ts : List (List Item)) (c : List Item) :
    countContaining (t :: ts) c =
      (if c.all (fun i => decide (i ∈ t)) then 1 else 0) + countContaining ts c := by
  unfold countContaining
  rw [List.filter_cons]
  by_cases h : c.all (fun i => decide (i ∈ t)) <;> simp [h, Nat.add_comm]

theorem countContaining_le_length (ts : List (List Item)) (c : List Item) :
    countContaining ts c ≤ ts.length :=
  List.length_filter_le _ _

theorem all_mem_congr {c1 c2 : List Item} (h : c1.Perm c2) (t : List Item) :
    c1.all (fun i => decide (i ∈ t)) = c2.all (fun i => decide (i ∈ t)) := by
  rw [Bool.eq_iff_iff]
  simp only [List.all_eq_true, decide_eq_true_eq]
  exact ⟨fun hc i hi => hc i (h.mem_iff.mpr hi), fun hc i hi => hc i (h.mem_iff.mp hi)⟩

theorem countContaining_congr (ts : List (List Item)) {c1 c2 : List Item}
    (h : c1.Perm c2) : countContaining ts c1 = countContaining ts c2 := by
  unfold countContaining
  congr 1
  exact List.filter_congr (fun t _ => all_mem_congr h t)

theorem countContaining_sortS (ts : List (List Item)) (c : List Item) :
    countContaining ts (sortS c) = countContaining ts c :=
  countContaining_congr ts (List.perm_insertionSort _ c)

theorem countContaining_mono (ts : List (List Item)) {a b : List Item}
    (h : ∀ x ∈ a, x ∈ b) : countContaining ts b ≤ countContaining ts a := by
  unfold countContaining
  apply List.Sublist.length_le
  apply List.monotone_filter_right
  intro t ht
  simp only [List.all_eq_true, decide_eq_true_eq] at ht ⊢
  exact fun x hx => ht x (h x hx)

theorem one_le_countContaining_iff (ts : List (List Item)) (c : List Item) :
    1 ≤ countContaining ts c ↔ ∃ t ∈ ts, c.all (fun i => decide (i ∈ t)) = true := by
  unfold countContaining
  constructor
  · intro h1
    have hne : ts.filter (fun t => c.all (fun i => decide (i ∈ t))) ≠ [] := by
      intro he
      rw [he] at h1
      exact absurd h1 (by simp)
    obtain ⟨t, ht⟩ := List.exists_mem_of_ne_nil _ hne
    exact ⟨t, (List.mem_filter.mp ht).1, (List.mem_filter.mp ht).2⟩
  · rintro ⟨t, ht, hc⟩
    exact List.length_pos_of_mem (List.mem_filter.mpr ⟨ht, hc⟩)

theorem sortS_idem (c : List Item) : sortS (sortS c) = sortS c :=
  List.Sorted.insertionSort_eq (List.sorted_insertionSort _ c)

theorem occs_keyStream (ts cands : List (List Item)) (hnd : cands.Nodup)
    (hs : ∀ c ∈ cands, sortS c = c) {k : List Item} (hk : k ∈ cands) :
    occs (keyStream ts cands) k = countContaining ts k := by
  induction ts with
  | nil => rfl
  | cons t ts ih =>
    have hstep : keyStream (t :: ts) cands
        = (cands.filter (fun c => c.all (fun i => decide (i ∈ t)))).map sortS
          ++ keyStream ts cands := by
      simp [keyStream]
    rw [hstep, occs_append, countContaining_cons, ih]
    have hmap : (cands.filter (fun c => c.all (fun i => decide (i ∈ t)))).map sortS
        = cands.filter (fun c => c.all (fun i => decide (i ∈ t))) := by
      rw [List.map_congr_left (fun c hc => hs c (List.mem_filter.mp hc).1)]
      exact List.map_id _
    rw [hmap, occs_of_nodup (hnd.filter _)]
    by_cases h : k.all (fun i => decide (i ∈ t))
    · simp [List.mem_filter, hk, h]
    · simp [List.mem_filter, h]

theorem mem_keyStream_iff (ts cands : List (List Item))
    (hs : ∀ c ∈ cands, sortS c = c) (k : List Item) :
    k ∈ keyStream ts cands ↔ k ∈ cands ∧ 1 ≤ countContaining ts k := by
  unfold keyStream
  rw [List.mem_flatMap]
  constructor
  · rintro ⟨t, ht, hk⟩
    obtain ⟨c, hc, hck⟩ := List.mem_map.mp hk
    have hcc := List.mem_filter.mp hc
    have hkc : k = c := by rw [← hck, hs c hcc.1]
    subst hkc
    exact ⟨hcc.1, (one_le_countContaining_iff ts k).mpr ⟨t, ht, hcc.2⟩⟩
  · rintro ⟨hk, h1⟩
    obtain ⟨t, ht, hc⟩ := (one_le_countContaining_iff ts k).mp h1
    exact ⟨t, ht, List.mem_map.mpr ⟨k, List.mem_filter.mpr ⟨hk, hc⟩, hs k hk⟩⟩

theorem candidateCounts_keys_nodup (ts cands : List (List Item)) :
    (keysOf (candidateCounts ts cands)).Nodup := by
  rw [candidateCounts_eq_foldl]
  exact nodup_keysOf_foldl_bump _ (by simp [keysOf])

theorem mem_candidateCounts_iff (ts cands : List (List Item)) (hnd : cands.Nodup)
    (hs : ∀ c ∈ cands, sortS c = c) (p : List Item × Nat) :
    p ∈ candidateCounts ts cands ↔
      p.1 ∈ cands ∧ 1 ≤ countContaining ts p.1 ∧ p.2 = countContaining ts p.1 := by
  have hkeys := candidateCounts_keys_nodup ts cands
  have hval : ∀ k ∈ cands, valAt (candidateCounts ts cands) k = countContaining ts k := by
    intro k hk
    rw [candidateCounts_eq_foldl, valAt_foldl_bump, valAt_nil,
      occs_keyStream ts cands hnd hs hk, Nat.zero_add]
  constructor
  · intro hp
    have hk : p.1 ∈ keysOf (candidateCounts ts cands) := List.mem_map.mpr ⟨p, hp, rfl⟩
    have hk2 : p.1 ∈ keyStream ts cands := by
      rw [candidateCounts_eq_foldl] at hk
      rcases (mem_keysOf_foldl_bump _ _ _).mp hk with h | h
      · simp [keysOf] at h
      · exact h
    have hmem := (mem_keyStream_iff ts cands hs p.1).mp hk2
    refine ⟨hmem.1, hmem.2, ?_⟩
    rw [valAt_eq_of_mem hkeys hp, hval p.1 hmem.1]
  · rintro ⟨h1, h2, h3⟩
    have hk2 : p.1 ∈ keyStream ts cands := (mem_keyStream_iff ts cands hs p.1).mpr ⟨h1, h2⟩
    have hk : p.1 ∈ keysOf (candidateCounts ts cands) := by
      rw [candidateCounts_eq_foldl]
      exact (mem_keysOf_foldl_bump _ _ _).mpr (Or.inr hk2)
    have hm := mem_of_mem_keys hkeys hk
    rw [hval p.1 h1] at hm
    obtain ⟨a, b⟩ := p
    simp only at h3
    rw [h3]
    exact hm

theorem itemCounts_keys_nodup (ts : List (List Item)) :
    (keysOf (itemCounts ts)).Nodup := by
  rw [itemCounts_eq_foldl]
  exact nodup_keysOf_foldl_bump _ (by simp [keysOf])

theorem occs_flatten_eq (ts : List (List Item)) (hts : ∀ t ∈ ts, t.Nodup) (i : Item) :
    occs ts.flatten i = countContaining ts [i] := by
  induction ts with
  | nil => rfl
  | cons t ts ih =>
    rw [List.flatten_cons, occs_append, countContaining_cons,
      ih (fun u hu => hts u (List.mem_cons_of_mem _ hu))]
    have hall : ([i].all (fun j => decide (j ∈ t))) = decide (i ∈ t) := by simp
    rw [hall, occs_of_nodup (hts t (List.mem_cons_self _ _))]
    by_cases h : i ∈ t <;> simp [h]

theorem mem_itemCounts (ts : List (List Item)) {p : Item × Nat}
    (hp : p ∈ itemCounts ts) :
    p.1 ∈ ts.flatten ∧ p.2 = occs ts.flatten p.1 ∧ 1 ≤ p.2 := by
  have hkeys := itemCounts_keys_nodup ts
  have hk : p.1 ∈ keysOf (itemCounts ts) := List.mem_map.mpr ⟨p, hp, rfl⟩
  have hk2 : p.1 ∈ ts.flatten := by
    rw [itemCounts_eq_foldl] at hk
    rcases (mem_keysOf_foldl_bump _ _ _).mp hk with h | h
    · simp [keysOf] at h
    · exact h
  have hv : p.2 = occs ts.flatten p.1 := by
    rw [valAt_eq_of_mem hkeys hp, itemCounts_eq_foldl, valAt_foldl_bump, valAt_nil,
      Nat.zero_add]
  refine ⟨hk2, hv, ?_⟩
  rw [hv]
  exact one_le_occs_of_mem hk2

/-! ## Sorting helpers -/

theorem sortS_sorted (l : List Item) : (sortS l).Sorted (· ≤ ·) :=
  List.sorted_insertionSort _ l

theorem sortS_perm (l : List Item) : (sortS l).Perm l :=
  List.perm_insertionSort _ l

theorem sortS_length (l : List Item) : (sortS l).length = l.length :=
  (sortS_perm l).length_eq

theorem sortS_eq_of_sorted {l : List Item} (h : l.Sorted (· ≤ ·)) : sortS l = l :=
  List.Sorted.insertionSort_eq h

theorem sortS_eq_sortS_of_perm {l1 l2 : List Item} (h : l1.Perm l2) :
    sortS l1 = sortS l2 :=
  List.eq_of_perm_of_sorted (((sortS_perm l1).trans h).trans (sortS_perm l2).symm)
    (sortS_sorted l1) (sortS_sorted l2)

theorem sortS_cons_of_le {a : Item} {l : List Item} (h : ∀ x ∈ l, a ≤ x) :
    sortS (a :: l) = a :: sortS l := by
  show List.orderedInsert _ a (List.insertionSort _ l) = a :: List.insertionSort _ l
  cases hs : List.insertionSort (· ≤ ·) l with
  | nil => rfl
  | cons x rest =>
    have hx : x ∈ l := by
      have : x ∈ List.insertionSort (· ≤ ·) l := by rw [hs]; exact List.mem_cons_self _ _
      exact (List.perm_insertionSort _ l).mem_iff.mp this
    simp [List.orderedInsert, h x hx]

/-! ## Structure of `allPairs` and the candidate lists -/

theorem mem_of_mem_allPairs {α : Type} {l : List α} {p : α × α}
    (h : p ∈ allPairs l) : p.1 ∈ l ∧ p.2 ∈ l := by
  induction l with
  | nil => cases h
  | cons x xs ih =>
    rw [allPairs, List.mem_append] at h
    rcases h with h | h
    · obtain ⟨y, hy, rfl⟩ := List.mem_map.mp h
      exact ⟨List.mem_cons_self _ _, List.mem_cons_of_mem _ hy⟩
    · exact ⟨List.mem_cons_of_mem _ (ih h).1, List.mem_cons_of_mem _ (ih h).2⟩

theorem ne_of_mem_allPairs {α : Type} {l : List α} (h : l.Nodup) {p : α × α}
    (hp : p ∈ allPairs l) : p.1 ≠ p.2 := by
  induction l with
  | nil => cases hp
  | cons x xs ih =>
    rw [allPairs, List.mem_append] at hp
    rcases List.nodup_cons.mp h with ⟨hx, hxs⟩
    rcases hp with hp | hp
    · obtain ⟨y, hy, rfl⟩ := List.mem_map.mp hp
      intro he
      exact hx (by rw [show x = y from he]; exact hy)
    · exact ih hxs hp

theorem nodup_allPairs_upair {α : Type} {l : List α} (h : l.Nodup) :
    ((allPairs l).map (fun p => (↑[p.1, p.2] : Multiset α))).Nodup := by
  induction l with
  | nil => simp [allPairs]
  | cons x xs ih =>
    rw [allPairs, List.map_append, List.map_map]
    rcases List.nodup_cons.mp h with ⟨hx, hxs⟩
    apply List.Nodup.append
    · apply List.Nodup.map_on ?_ hxs
      intro y1 h1 y2 h2 he
      have he' : (↑[x, y1] : Multiset α) = ↑[x, y2] := he
      have hp := (Multiset.coe_eq_coe.mp he').cons_inv
      simpa using List.perm_singleton.mp hp
    · exact ih hxs
    · intro m hm1 hm2
      obtain ⟨y, hy, hym⟩ := List.mem_map.mp hm1
      obtain ⟨q, hq, hqm⟩ := List.mem_map.mp hm2
      have hym' : (↑[x, y] : Multiset α) = m := hym
      have hxq : x ∈ (↑[q.1, q.2] : Multiset α) := by
        rw [hqm, ← hym']
        simp
      simp only [Multiset.mem_coe, List.mem_cons, List.mem_singleton,
        List.not_mem_nil, or_false] at hxq
      have hq12 := mem_of_mem_allPairs hq
      rcases hxq with h1 | h1
      · exact hx (h1 ▸ hq12.1)
      · exact hx (h1 ▸ hq12.2)

theorem allPairs_nodup {α : Type} {l : List α} (h : l.Nodup) : (allPairs l).Nodup :=
  List.Nodup.of_map _ (nodup_allPairs_upair h)

theorem inj_allPairs {α : Type} {l : List α} (h : l.Nodup)
    {p q : α × α} (hp : p ∈ allPairs l) (hq : q ∈ allPairs l)
    (he : (↑[p.1, p.2] : Multiset α) = ↑[q.1, q.2]) : p = q :=
  List.inj_on_of_nodup_map (nodup_allPairs_upair h) hp hq he

theorem allPairs_map {α β : Type} (f : α → β) (l : List α) :
    allPairs (l.map f) = (allPairs l).map (Prod.map f f) := by
  induction l with
  | nil => rfl
  | cons x xs ih =>
    simp only [List.map_cons, allPairs, ih, List.map_append, List.map_map]
    congr 1

theorem nodup_filterMap_on {α β : Type} {l : List α} (g : α → Option β)
    (hinj : ∀ p ∈ l, ∀ q ∈ l, ∀ c : β, g p = some c → g q = some c → p = q)
    (hnd : l.Nodup) : (l.filterMap g).Nodup := by
  induction l with
  | nil => simp
  | cons x xs ih =>
    rw [List.filterMap_cons]
    rcases List.nodup_cons.mp hnd with ⟨hx, hxs⟩
    have ih' := ih (fun p hp q hq c h1 h2 =>
      hinj p (List.mem_cons_of_mem _ hp) q (List.mem_cons_of_mem _ hq) c h1 h2) hxs
    cases hg : g x with
    | none => exact ih'
    | some c =>
      refine List.nodup_cons.mpr ⟨?_, ih'⟩
      intro hc
      obtain ⟨q, hq, hqc⟩ := List.mem_filterMap.mp hc
      have := hinj x (List.mem_cons_self _ _) q (List.mem_cons_of_mem _ hq) c hg hqc
      rw [this] at hx
      exact hx hq

/-! ## Unfolding the two miners into their stages -/

theorem aprioriAlgorithm_eq (ts : List (List Item)) (ms : ℚ) :
    aprioriAlgorithm ts ms = apF1 ts ms ++ apF2 ts ms ++ apF3 ts ms := rfl

theorem fpGrowthAlgorithm_eq (ts : List (List Item)) (ms : ℚ) :
    fpGrowthAlgorithm ts ms = fpSingles ts ms ++ fpPairs ts ms := rfl

theorem filterMap_if_eq {α β : Type} (l : List α) (P : α → Prop) [DecidablePred P]
    (g : α → β) :
    l.filterMap (fun a => if P a then some (g a) else none)
      = (l.filter (fun a => decide (P a))).map g := by
  induction l with
  | nil => rfl
  | cons x xs ih =>
    rw [List.filterMap_cons, List.filter_cons]
    by_cases h : P x <;> simp [h, ih]

theorem apF1_eq (ts : List (List Item)) (ms : ℚ) :
    apF1 ts ms = ((itemCounts ts).filter
        (fun p => decide (minSupportCount ms ts.length ≤ (p.2 : ℤ)))).map
      (fun p => ⟨[p.1], (p.2 : ℚ) / ts.length, p.2⟩) :=
  filterMap_if_eq _ _ _

theorem apF1_itemsets (ts : List (List Item)) (ms : ℚ) :
    (apF1 ts ms).map FrequentItemset.itemset = (apItems ts ms).map (fun a => [a]) := by
  rw [apF1_eq, apItems, List.map_map, List.map_map]
  rfl

theorem apItems_nodup (ts : List (List Item)) (ms : ℚ) : (apItems ts ms).Nodup := by
  have hsub : List.Sublist (apItems ts ms) ((itemCounts ts).map Prod.fst) :=
    (List.filter_sublist _).map _
  exact hsub.nodup (itemCounts_keys_nodup ts)

theorem generateCandidates_singletons (A : List Item) :
    generateCandidates (A.map (fun a => [a])) 2
      = (allPairs A).map (fun p => sortS [p.1, p.2]) := by
  unfold generateCandidates
  rw [allPairs_map, List.filterMap_map]
  have hfun : ((fun p : List Item × List Item =>
        let s1 := sortS p.1
        let s2 := sortS p.2
        if s1.take (2 - 2) = s2.take (2 - 2) then
          some (sortS (s1 ++ s2.drop (s2.length - 1)))
        else none) ∘ Prod.map (fun a : Item => [a]) (fun a : Item => [a]))
      = fun p : Item × Item => some (sortS [p.1, p.2]) := by
    funext p
    rfl
  rw [hfun]
  rw [show (fun p : Item × Item => some (sortS [p.1, p.2]))
      = some ∘ (fun p : Item × Item => sortS [p.1, p.2]) from rfl]
  exact congrFun (List.filterMap_eq_map _) _

theorem apC2_eq (ts : List (List Item)) (ms : ℚ) :
    apC2 ts ms = (allPairs (apItems ts ms)).map (fun p => sortS [p.1, p.2]) := by
  rw [apC2, apF1_itemsets, generateCandidates_singletons]

theorem pair_map_shape {A : List Item} (hA : A.Nodup) {c : List Item}
    (hc : c ∈ (allPairs A).map (fun p => sortS [p.1, p.2])) :
    c.Sorted (· ≤ ·) ∧ c.length = 2 ∧ c.Nodup ∧ sortS c = c := by
  obtain ⟨p, hp, rfl⟩ := List.mem_map.mp hc
  have hne := ne_of_mem_allPairs hA hp
  refine ⟨sortS_sorted _, by rw [sortS_length]; rfl, ?_, sortS_idem _⟩
  exact ((sortS_perm _).nodup_iff).mpr (by simp [hne])

theorem pair_map_nodup {A : List Item} (hA : A.Nodup) :
    ((allPairs A).map (fun p => sortS [p.1, p.2])).Nodup := by
  apply List.Nodup.map_on ?_ (allPairs_nodup hA)
  intro p hp q hq he
  apply inj_allPairs hA hp hq
  calc (↑[p.1, p.2] : Multiset Item)
      = ↑(sortS [p.1, p.2]) := Multiset.coe_eq_coe.mpr (sortS_perm _).symm
    _ = ↑(sortS [q.1, q.2]) := by rw [he]
    _ = ↑[q.1, q.2] := Multiset.coe_eq_coe.mpr (sortS_perm _)

theorem levelK_eq (ts : List (List Item)) (msc : ℤ) (total : Nat)
    (cands : List (List Item)) :
    levelK ts msc total cands = ((candidateCounts ts cands).filter
        (fun p => decide (msc ≤ (p.2 : ℤ)))).map
      (fun p => ⟨p.1, (p.2 : ℚ) / total, p.2⟩) :=
  filterMap_if_eq _ _ _

theorem mem_levelK {ts : List (List Item)} {msc : ℤ} {total : Nat}
    {cands : List (List Item)} (hnd : cands.Nodup) (hs : ∀ c ∈ cands, sortS c = c) :
    ∀ f ∈ levelK ts msc total cands,
      f.itemset ∈ cands ∧ f.count = countContaining ts f.itemset ∧ 1 ≤ f.count ∧
      f.support = (f.count : ℚ) / total ∧ msc ≤ (f.count : ℤ) := by
  intro f hf
  rw [levelK_eq] at hf
  obtain ⟨p, hp, rfl⟩ := List.mem_map.mp hf
  have hpf := List.mem_filter.mp hp
  have hcc := (mem_candidateCounts_iff ts cands hnd hs p).mp hpf.1
  exact ⟨hcc.1, hcc.2.2, by rw [hcc.2.2]; exact hcc.2.1, rfl, by simpa using hpf.2⟩

theorem apC2_nodup (ts : List (List Item)) (ms : ℚ) : (apC2 ts ms).Nodup := by
  rw [apC2_eq]
  exact pair_map_nodup (apItems_nodup ts ms)

theorem apC2_shape (ts : List (List Item)) (ms : ℚ) :
    ∀ c ∈ apC2 ts ms, c.Sorted (· ≤ ·) ∧ c.length = 2 ∧ c.Nodup ∧ sortS c = c := by
  intro c hc
  rw [apC2_eq] at hc
  exact pair_map_shape (apItems_nodup ts ms) hc

theorem apF2_itemsets_nodup (ts : List (List Item)) (ms : ℚ) :
    ((apF2 ts ms).map FrequentItemset.itemset).Nodup := by
  rw [apF2, levelK_eq, List.map_map]
  have hsub : List.Sublist
      ((List.filter (fun p => decide (minSupportCount ms ts.length ≤ (p.2 : ℤ)))
        (candidateCounts ts (apC2 ts ms))).map Prod.fst)
      ((candidateCounts ts (apC2 ts ms)).map Prod.fst) :=
    (List.filter_sublist _).map _
  exact hsub.nodup (candidateCounts_keys_nodup ts _)

/-! ## The level-3 candidate join -/

theorem c3_shape {L : List (List Item)}
    (hL : ∀ x ∈ L, x.Sorted (· ≤ ·) ∧ x.length = 2 ∧ x.Nodup) (hnd : L.Nodup) :
    ∀ c ∈ generateCandidates L 3, ∃ a b d : Item, a < b ∧ a < d ∧ b ≠ d ∧
      [a, b] ∈ L ∧ [a, d] ∈ L ∧ c = sortS [a, b, d] := by
  intro c hc
  unfold generateCandidates at hc
  obtain ⟨p, hp, hsome⟩ := List.mem_filterMap.mp hc
  obtain ⟨hx, hy⟩ := mem_of_mem_allPairs hp
  obtain ⟨hxs, hxl, hxn⟩ := hL p.1 hx
  obtain ⟨hys, hyl, hyn⟩ := hL p.2 hy
  obtain ⟨a, b, hab⟩ := List.length_eq_two.mp hxl
  obtain ⟨a', d, had⟩ := List.length_eq_two.mp hyl
  dsimp only at hsome
  rw [sortS_eq_of_sorted hxs, sortS_eq_of_sorted hys, hab, had] at hsome
  simp only [show (3 : Nat) - 2 = 1 from rfl, List.take_succ_cons, List.take_zero,
    List.length_cons, List.length_nil] at hsome
  split at hsome
  case isFalse => cases hsome
  case isTrue hcond =>
    have haa : a = a' := by simpa using hcond
    subst haa
    have hc3 : c = sortS [a, b, d] := by
      have := Option.some.inj hsome
      rw [← this]
      rfl
    rw [hab] at hxn hxs
    rw [had] at hyn hys
    have hab' : a ≤ b := by
      rcases List.sorted_cons.mp hxs with ⟨h1, _⟩
      exact h1 b (List.mem_singleton_self b)
    have hab'' : a ≠ b := by
      rcases List.nodup_cons.mp hxn with ⟨h1, _⟩
      simpa using h1
    have had' : a ≤ d := by
      rcases List.sorted_cons.mp hys with ⟨h1, _⟩
      exact h1 d (List.mem_singleton_self d)
    have had'' : a ≠ d := by
      rcases List.nodup_cons.mp hyn with ⟨h1, _⟩
      simpa using h1
    have hbd : b ≠ d := by
      intro he
      apply ne_of_mem_allPairs hnd hp
      rw [hab, had, he]
    exact ⟨a, b, d, lt_of_le_of_ne hab' hab'', lt_of_le_of_ne had' had'', hbd,
      hab ▸ hx, had ▸ hy, hc3⟩

theorem sortS_triple_cons {a b d : Item} (h1 : a ≤ b) (h2 : a ≤ d) :
    sortS [a, b, d] = a :: sortS [b, d] := by
  apply sortS_cons_of_le
  intro x hx
  rcases List.mem_cons.mp hx with rfl | hx
  · exact h1
  · rw [List.mem_singleton.mp hx]
    exact h2

theorem c3_nodup {L : List (List Item)}
    (hL : ∀ x ∈ L, x.Sorted (· ≤ ·) ∧ x.length = 2 ∧ x.Nodup) (hnd : L.Nodup) :
    (generateCandidates L 3).Nodup := by
  unfold generateCandidates
  apply nodup_filterMap_on _ ?_ (allPairs_nodup hnd)
  intro p hp q hq c h1 h2
  -- decompose both pairs
  obtain ⟨hpx, hpy⟩ := mem_of_mem_allPairs hp
  obtain ⟨hqx, hqy⟩ := mem_of_mem_allPairs hq
  obtain ⟨hpxs, hpxl, hpxn⟩ := hL p.1 hpx
  obtain ⟨hpys, hpyl, hpyn⟩ := hL p.2 hpy
  obtain ⟨hqxs, hqxl, hqxn⟩ := hL q.1 hqx
  obtain ⟨hqys, hqyl, hqyn⟩ := hL q.2 hqy
  obtain ⟨a, b, hab⟩ := List.length_eq_two.mp hpxl
  obtain ⟨a2, d, had⟩ := List.length_eq_two.mp hpyl
  obtain ⟨e, f, hef⟩ := List.length_eq_two.mp hqxl
  obtain ⟨e2, g, heg⟩ := List.length_eq_two.mp hqyl
  dsimp only at h1 h2
  rw [sortS_eq_of_sorted hpxs, sortS_eq_of_sorted hpys, hab, had] at h1
  rw [sortS_eq_of_sorted hqxs, sortS_eq_of_sorted hqys, hef, heg] at h2
  simp only [show (3 : Nat) - 2 = 1 from rfl, List.take_succ_cons, List.take_zero,
    List.length_cons, List.length_nil] at h1 h2
  split at h1
  case isFalse => cases h1
  case isTrue hcond1 =>
  split at h2
  case isFalse => cases h2
  case isTrue hcond2 =>
  have haa : a = a2 := by simpa using hcond1
  have hee : e = e2 := by simpa using hcond2
  subst haa
  subst hee
  have hc1 : sortS [a, b, d] = c := by
    rw [← Option.some.inj h1]
    rfl
  have hc2 : sortS [e, f, g] = c := by
    rw [← Option.some.inj h2]
    rfl
  rw [hab] at hpxs hpxn
  rw [had] at hpys hpyn
  rw [hef] at hqxs hqxn
  rw [heg] at hqys hqyn
  have hle : ∀ x y : Item, ([x, y] : List Item).Sorted (· ≤ ·) → x ≤ y := by
    intro x y hs
    rcases List.sorted_cons.mp hs with ⟨hh, _⟩
    exact hh y (List.mem_singleton_self y)
  have h3 := (sortS_triple_cons (hle a b hpxs) (hle a d hpys)).symm.trans hc1
  have h4 := (sortS_triple_cons (hle e f hqxs) (hle e g hqys)).symm.trans hc2
  have h5 : a :: sortS [b, d] = e :: sortS [f, g] := h3.trans h4.symm
  have hae : a = e := by
    have := congrArg (fun l => l.headI) h5
    simpa using this
  subst hae
  have htail : sortS [b, d] = sortS [f, g] := by
    have := congrArg List.tail h5
    simpa using this
  have hperm : ([b, d] : List Item).Perm [f, g] :=
    ((sortS_perm [b, d]).symm.trans (htail ▸ sortS_perm [f, g]))
  have hbd : b ≠ d := by
    intro he
    apply ne_of_mem_allPairs hnd hp
    rw [hab, had, he]
  have hbm : b ∈ ([f, g] : List Item) := hperm.mem_iff.mp (List.mem_cons_self _ _)
  rcases List.mem_cons.mp hbm with hbf | hbg
  · -- b = f, hence d = g and p = q componentwise
    subst hbf
    have hdg : d = g := by
      have := hperm.cons_inv
      simpa using List.perm_singleton.mp this
    subst hdg
    have : p = q := by
      apply Prod.ext
      · rw [hab, hef]
      · rw [had, heg]
    rw [this]
  · -- b = g, d = f: the pairs are swapped
    have hbg' : b = g := by simpa using hbg
    subst hbg'
    have hdf : d = f := by
      have hd : d ∈ ([f, b] : List Item) := hperm.mem_iff.mp (by simp)
      rcases List.mem_cons.mp hd with h | h
      · exact h
      · exfalso
        have hdb : d = b := by simpa using h
        exact hbd hdb.symm
    subst hdf
    apply inj_allPairs hnd hp hq
    rw [hab, had, hef, heg]
    exact Multiset.coe_eq_coe.mpr (List.Perm.swap _ _ _)

/-! ## Assembled facts about the stages of the two miners -/

theorem apL2_props (ts : List (List Item)) (ms : ℚ) :
    ∀ x ∈ (apF2 ts ms).map FrequentItemset.itemset,
      x.Sorted (· ≤ ·) ∧ x.length = 2 ∧ x.Nodup := by
  intro x hx
  obtain ⟨f, hf, rfl⟩ := List.mem_map.mp hx
  unfold apF2 at hf
  have h := mem_levelK (apC2_nodup ts ms)
    (fun c hc => (apC2_shape ts ms c hc).2.2.2) f hf
  obtain ⟨hs, hl, hn, _⟩ := apC2_shape ts ms f.itemset h.1
  exact ⟨hs, hl, hn⟩

theorem apC3_nodup (ts : List (List Item)) (ms : ℚ) : (apC3 ts ms).Nodup :=
  c3_nodup (apL2_props ts ms) (apF2_itemsets_nodup ts ms)

theorem apC3_shape (ts : List (List Item)) (ms : ℚ) :
    ∀ c ∈ apC3 ts ms, c.Sorted (· ≤ ·) ∧ c.length = 3 ∧ sortS c = c := by
  intro c hc
  obtain ⟨a, b, d, _, _, _, _, _, rfl⟩ :=
    c3_shape (apL2_props ts ms) (apF2_itemsets_nodup ts ms) c hc
  exact ⟨sortS_sorted _, by rw [sortS_length]; rfl, sortS_idem _⟩

theorem mem_apF1 {ts : List (List Item)} {ms : ℚ} :
    ∀ f ∈ apF1 ts ms, (∃ i, f.itemset = [i]) ∧
      ((∀ t ∈ ts, t.Nodup) → f.count = countContaining ts f.itemset) ∧ 1 ≤ f.count ∧
      f.support = (f.count : ℚ) / (ts.length : ℚ) ∧
      minSupportCount ms ts.length ≤ (f.count : ℤ) := by
  intro f hf
  rw [apF1_eq] at hf
  obtain ⟨p, hp, rfl⟩ := List.mem_map.mp hf
  have hpf := List.mem_filter.mp hp
  have hic := mem_itemCounts ts hpf.1
  refine ⟨⟨p.1, rfl⟩, ?_, hic.2.2, rfl, by simpa using hpf.2⟩
  intro hts
  show p.2 = countContaining ts [p.1]
  rw [hic.2.1, occs_flatten_eq ts hts]

theorem mem_fpSortedItems {ts : List (List Item)} {ms : ℚ} :
    ∀ p ∈ fpSortedItems ts ms,
      p ∈ itemCounts ts ∧ minSupportCount ms ts.length ≤ (p.2 : ℤ) := by
  intro p hp
  have hpf := List.mem_filter.mp hp
  exact ⟨(List.perm_insertionSort _ _).mem_iff.mp hpf.1, by simpa using hpf.2⟩

theorem mem_fpPairs {ts : List (List Item)} {ms : ℚ} :
    ∀ f ∈ fpPairs ts ms, ∃ a b : Item,
      (a, b) ∈ allPairs ((fpSortedItems ts ms).map Prod.fst) ∧
      f.itemset = sortS [a, b] ∧ f.count = countContaining ts [a, b] ∧
      f.support = (f.count : ℚ) / (ts.length : ℚ) ∧
      minSupportCount ms ts.length ≤ (f.count : ℤ) := by
  intro f hf
  unfold fpPairs at hf
  obtain ⟨p, hp, hsome⟩ := List.mem_filterMap.mp hf
  split at hsome
  case isFalse => cases hsome
  case isTrue hcond =>
    rw [← Option.some.inj hsome]
    exact ⟨p.1, p.2, hp, rfl, rfl, rfl, hcond⟩

/-- The per-itemset property asserted by the specification for every
frequent itemset a miner returns. -/
def soundItemset (ts : List (List Item)) (ms : ℚ) (f : FrequentItemset) : Prop :=
  f.itemset.Sorted (· ≤ ·) ∧
  f.count = countContaining ts f.itemset ∧
  f.support = (f.count : ℚ) / (ts.length : ℚ) ∧
  minSupportCount ms ts.length ≤ (f.count : ℤ)

theorem apriori_sound (ts : List (List Item)) (ms : ℚ)
    (hts : ∀ t ∈ ts, t.Nodup) :
    ∀ f ∈ aprioriAlgorithm ts ms, soundItemset ts ms f := by
  intro f hf
  rw [aprioriAlgorithm_eq, List.append_assoc, List.mem_append, List.mem_append] at hf
  rcases hf with hf | hf | hf
  · obtain ⟨⟨i, hi⟩, hcnt, _, hsup, hmsc⟩ := mem_apF1 f hf
    exact ⟨by rw [hi]; exact List.sorted_singleton i, hcnt hts, hsup, hmsc⟩
  · unfold apF2 at hf
    have h := mem_levelK (apC2_nodup ts ms)
      (fun c hc => (apC2_shape ts ms c hc).2.2.2) f hf
    exact ⟨(apC2_shape ts ms f.itemset h.1).1, h.2.1, h.2.2.2.1, h.2.2.2.2⟩
  · unfold apF3 at hf
    have h := mem_levelK (apC3_nodup ts ms)
      (fun c hc => (apC3_shape ts ms c hc).2.2) f hf
    exact ⟨(apC3_shape ts ms f.itemset h.1).1, h.2.1, h.2.2.2.1, h.2.2.2.2⟩

theorem fpGrowth_sound (ts : List (List Item)) (ms : ℚ)
    (hts : ∀ t ∈ ts, t.Nodup) :
    ∀ f ∈ fpGrowthAlgorithm ts ms, soundItemset ts ms f := by
  intro f hf
  rw [fpGrowthAlgorithm_eq, List.mem_append] at hf
  rcases hf with hf | hf
  · unfold fpSingles at hf
    obtain ⟨p, hp, rfl⟩ := List.mem_map.mp hf
    have h := mem_fpSortedItems p hp
    have hic := mem_itemCounts ts h.1
    refine ⟨List.sorted_singleton p.1, ?_, rfl, h.2⟩
    show p.2 = countContaining ts [p.1]
    rw [hic.2.1, occs_flatten_eq ts hts]
  · obtain ⟨a, b, _, hset, hcnt, hsup, hmsc⟩ := mem_fpPairs f hf
    refine ⟨by rw [hset]; exact sortS_sorted _, ?_, hsup, hmsc⟩
    rw [hset, countContaining_sortS, hcnt]

/-- C1: every itemset either miner returns has canonically sorted members,
a count equal to the number of baskets containing all its items, support
equal to count over the number of baskets, and a count at least
⌈min_support · number of baskets⌉.  Baskets are item sets, so each is
duplicate-free. -/
theorem frequent_itemsets_sound (ts : List (List Item)) (ms : ℚ)
    (hts : ∀ t ∈ ts, t.Nodup) :
    (∀ f ∈ aprioriAlgorithm ts ms,
        f.itemset.Sorted (· ≤ ·) ∧
        f.count = countContaining ts f.itemset ∧
        f.support = (f.count : ℚ) / (ts.length : ℚ) ∧
        minSupportCount ms ts.length ≤ (f.count : ℤ)) ∧
    (∀ f ∈ fpGrowthAlgorithm ts ms,
        f.itemset.Sorted (· ≤ ·) ∧
        f.count = countContaining ts f.itemset ∧
        f.support = (f.count : ℚ) / (ts.length : ℚ) ∧
        minSupportCount ms ts.length ≤ (f.count : ℤ)) :=
  ⟨apriori_sound ts ms hts, fpGrowth_sound ts ms hts⟩

/-- Witness for C1 at a concrete basket list and support threshold. -/
theorem frequent_itemsets_sound_witness :
    (∀ t ∈ ([["a", "b"]] : List (List Item)), t.Nodup) ∧
    ((∀ f ∈ aprioriAlgorithm [["a", "b"]] (1/2),
        f.itemset.Sorted (· ≤ ·) ∧
        f.count = countContaining [["a", "b"]] f.itemset ∧
        f.support = (f.count : ℚ) / (([["a", "b"]] : List (List Item)).length : ℚ) ∧
        minSupportCount (1/2) ([["a", "b"]] : List (List Item)).length ≤ (f.count : ℤ)) ∧
    (∀ f ∈ fpGrowthAlgorithm [["a", "b"]] (1/2),
        f.itemset.Sorted (· ≤ ·) ∧
        f.count = countContaining [["a", "b"]] f.itemset ∧
        f.support = (f.count : ℚ) / (([["a", "b"]] : List (List Item)).length : ℚ) ∧
        minSupportCount (1/2) ([["a", "b"]] : List (List Item)).length ≤ (f.count : ℤ))) :=
  ⟨by decide, frequent_itemsets_sound [["a", "b"]] (1/2) (by decide)⟩

/-- C3: the Apriori miner never returns an itemset of more than three
members, and the FP-Growth-style miner never returns one of more than two. -/
theorem itemset_size_caps (ts : List (List Item)) (ms : ℚ) :
    (∀ f ∈ aprioriAlgorithm ts ms, f.itemset.length ≤ 3) ∧
    (∀ f ∈ fpGrowthAlgorithm ts ms, f.itemset.length ≤ 2) := by
  constructor
  · intro f hf
    rw [aprioriAlgorithm_eq, List.append_assoc, List.mem_append, List.mem_append] at hf
    rcases hf with hf | hf | hf
    · obtain ⟨⟨i, hi⟩, -, -, -, -⟩ := mem_apF1 f hf
      rw [hi]
      exact by norm_num
    · unfold apF2 at hf
      have h := mem_levelK (apC2_nodup ts ms)
        (fun c hc => (apC2_shape ts ms c hc).2.2.2) f hf
      rw [(apC2_shape ts ms f.itemset h.1).2.1]
      norm_num
    · unfold apF3 at hf
      have h := mem_levelK (apC3_nodup ts ms)
        (fun c hc => (apC3_shape ts ms c hc).2.2) f hf
      rw [(apC3_shape ts ms f.itemset h.1).2.1]
  · intro f hf
    rw [fpGrowthAlgorithm_eq, List.mem_append] at hf
    rcases hf with hf | hf
    · unfold fpSingles at hf
      obtain ⟨p, hp, rfl⟩ := List.mem_map.mp hf
      show ([p.1] : List Item).length ≤ 2
      norm_num
    · obtain ⟨a, b, -, hset, -, -, -⟩ := mem_fpPairs f hf
      rw [hset, sortS_length]
      norm_num

/-! ## The rule generator -/

theorem maskSplit_perm (l : List Item) (i : Nat) :
    ((maskSplit l i).1 ++ (maskSplit l i).2).Perm l := by
  induction l generalizing i with
  | nil => simp [maskSplit]
  | cons x xs ih =>
    rw [maskSplit]
    by_cases h : i % 2 = 1
    · simp only [if_pos h]
      exact (ih (i / 2)).cons x
    · simp only [if_neg h]
      exact List.perm_middle.trans ((ih (i / 2)).cons x)

theorem maskSplit_subset_left (l : List Item) (i : Nat) :
    ∀ x ∈ (maskSplit l i).1, x ∈ l :=
  fun _ hx => (maskSplit_perm l i).mem_iff.mp (List.mem_append.mpr (Or.inl hx))

theorem mem_rulesForItemset {r : AssociationRule} {it : FrequentItemset} {mc : ℚ}
    {ts : List (List Item)} (h : r ∈ rulesForItemset it mc ts) :
    ∃ i : Nat, (maskSplit it.itemset i).1 ≠ [] ∧ (maskSplit it.itemset i).2 ≠ [] ∧
      mc ≤ it.support
        / ((countContaining ts (maskSplit it.itemset i).1 : ℚ) / (ts.length : ℚ)) ∧
      r = ⟨sortS (maskSplit it.itemset i).1, sortS (maskSplit it.itemset i).2,
           it.support,
           it.support
             / ((countContaining ts (maskSplit it.itemset i).1 : ℚ) / (ts.length : ℚ)),
           it.support
             / ((countContaining ts (maskSplit it.itemset i).1 : ℚ) / (ts.length : ℚ))
             / ((it.count : ℚ) / (ts.length : ℚ))⟩ := by
  unfold rulesForItemset at h
  obtain ⟨i, _, hsome⟩ := List.mem_filterMap.mp h
  dsimp only at hsome
  refine ⟨i, ?_⟩
  split at hsome
  case isTrue => cases hsome
  case isFalse hne =>
    push_neg at hne
    split at hsome
    case isFalse => cases hsome
    case isTrue hconf =>
      exact ⟨hne.1, hne.2, hconf, (Option.some.inj hsome).symm⟩

theorem mem_generateAssociationRules {r : AssociationRule} {fis : List FrequentItemset}
    {mc : ℚ} {ts : List (List Item)} (h : r ∈ generateAssociationRules fis mc ts) :
    ∃ it ∈ fis, 2 ≤ it.itemset.length ∧ r ∈ rulesForItemset it mc ts := by
  unfold generateAssociationRules at h
  obtain ⟨it, hit, hr⟩ := List.mem_flatMap.mp h
  have hf := List.mem_filter.mp hit
  exact ⟨it, hf.1, by simpa using hf.2, hr⟩

/-- C2: every emitted rule splits one input frequent itemset into a
non-empty, disjoint, canonically sorted antecedent and consequent; its
support is the itemset's, its confidence is the itemset support over the
antecedent's support fraction and meets the threshold, and its lift is
confidence over (count / totalBaskets).  Itemsets are sequences of
distinct identifiers per the data model. -/
theorem rules_sound (fis : List FrequentItemset) (mc : ℚ) (ts : List (List Item))
    (hnd : ∀ it ∈ fis, it.itemset.Nodup) :
    ∀ r ∈ generateAssociationRules fis mc ts, ∃ it ∈ fis,
      r.antecedent ≠ [] ∧ r.consequent ≠ [] ∧
      r.antecedent.Sorted (· ≤ ·) ∧ r.consequent.Sorted (· ≤ ·) ∧
      (∀ x ∈ r.antecedent, x ∉ r.consequent) ∧
      sortS (r.antecedent ++ r.consequent) = sortS it.itemset ∧
      r.support = it.support ∧
      r.confidence
        = it.support / ((countContaining ts r.antecedent : ℚ) / (ts.length : ℚ)) ∧
      mc ≤ r.confidence ∧
      r.lift = r.confidence / ((it.count : ℚ) / (ts.length : ℚ)) := by
  intro r hr
  obtain ⟨it, hit, hlen, hr'⟩ := mem_generateAssociationRules hr
  obtain ⟨i, hne1, hne2, hconf, hre⟩ := mem_rulesForItemset hr'
  subst hre
  have hperm := maskSplit_perm it.itemset i
  have hnodup : ((maskSplit it.itemset i).1 ++ (maskSplit it.itemset i).2).Nodup :=
    (hperm.nodup_iff).mpr (hnd it hit)
  rcases List.nodup_append.mp hnodup with ⟨-, -, hdisj⟩
  refine ⟨it, hit, ?_, ?_, sortS_sorted _, sortS_sorted _, ?_, ?_, rfl, ?_, hconf, rfl⟩
  · intro he
    apply hne1
    have := congrArg List.length he
    rw [sortS_length] at this
    exact List.length_eq_zero.mp this
  · intro he
    apply hne2
    have := congrArg List.length he
    rw [sortS_length] at this
    exact List.length_eq_zero.mp this
  · intro x hx hx2
    exact hdisj ((sortS_perm _).mem_iff.mp hx) ((sortS_perm _).mem_iff.mp hx2)
  · exact sortS_eq_sortS_of_perm
      (((sortS_perm _).append (sortS_perm _)).trans hperm)
  · show it.support / ((countContaining ts (maskSplit it.itemset i).1 : ℚ) / _)
      = it.support / ((countContaining ts (sortS (maskSplit it.itemset i).1) : ℚ) / _)
    rw [countContaining_sortS]

/-- Witness for C2 at a concrete itemset list, threshold and basket list. -/
theorem rules_sound_witness :
    (∀ it ∈ ([⟨["A", "B"], 1, 2⟩] : List FrequentItemset), it.itemset.Nodup) ∧
    (∀ r ∈ generateAssociationRules [⟨["A", "B"], 1, 2⟩] (1/2) [["A", "B"], ["A", "B"]],
      ∃ it ∈ ([⟨["A", "B"], 1, 2⟩] : List FrequentItemset),
        r.antecedent ≠ [] ∧ r.consequent ≠ [] ∧
        r.antecedent.Sorted (· ≤ ·) ∧ r.consequent.Sorted (· ≤ ·) ∧
        (∀ x ∈ r.antecedent, x ∉ r.consequent) ∧
        sortS (r.antecedent ++ r.consequent) = sortS it.itemset ∧
        r.support = it.support ∧
        r.confidence = it.support
          / ((countContaining [["A", "B"], ["A", "B"]] r.antecedent : ℚ)
              / (([["A", "B"], ["A", "B"]] : List (List Item)).length : ℚ)) ∧
        (1 : ℚ)/2 ≤ r.confidence ∧
        r.lift = r.confidence / ((it.count : ℚ)
          / (([["A", "B"], ["A", "B"]] : List (List Item)).length : ℚ))) :=
  ⟨by decide, rules_sound [⟨["A", "B"], 1, 2⟩] (1/2) [["A", "B"], ["A", "B"]] (by decide)⟩

/-! ## Positivity of antecedent supports -/

theorem one_le_minSupportCount {ms : ℚ} (h : 0 < ms) {total : Nat} (ht : 0 < total) :
    1 ≤ minSupportCount ms total := by
  unfold minSupportCount
  have hpos : (0 : ℚ) < ms * total := by
    apply mul_pos h
    exact_mod_cast ht
  have := Int.ceil_pos.mpr hpos
  omega

theorem total_pos_of_mem_itemCounts {ts : List (List Item)} {p : Item × Nat}
    (hp : p ∈ itemCounts ts) : 0 < ts.length := by
  obtain ⟨t, ht, -⟩ := List.mem_flatten.mp (mem_itemCounts ts hp).1
  exact List.length_pos_of_mem ht

theorem apriori_count_pos (ts : List (List Item)) (ms : ℚ) :
    ∀ f ∈ aprioriAlgorithm ts ms, 1 ≤ f.count := by
  intro f hf
  rw [aprioriAlgorithm_eq, List.append_assoc, List.mem_append, List.mem_append] at hf
  rcases hf with hf | hf | hf
  · exact (mem_apF1 f hf).2.2.1
  · unfold apF2 at hf
    exact (mem_levelK (apC2_nodup ts ms)
      (fun c hc => (apC2_shape ts ms c hc).2.2.2) f hf).2.2.1
  · unfold apF3 at hf
    exact (mem_levelK (apC3_nodup ts ms)
      (fun c hc => (apC3_shape ts ms c hc).2.2) f hf).2.2.1

theorem fpGrowth_count_pos (ts : List (List Item)) {ms : ℚ} (hms : 0 < ms) :
    ∀ f ∈ fpGrowthAlgorithm ts ms, 1 ≤ f.count := by
  intro f hf
  rw [fpGrowthAlgorithm_eq, List.mem_append] at hf
  rcases hf with hf | hf
  · unfold fpSingles at hf
    obtain ⟨p, hp, rfl⟩ := List.mem_map.mp hf
    exact (mem_itemCounts ts (mem_fpSortedItems p hp).1).2.2
  · obtain ⟨a, b, hab, -, -, -, hmsc⟩ := mem_fpPairs f hf
    have ha := (mem_of_mem_allPairs hab).1
    obtain ⟨p, hp, -⟩ := List.mem_map.mp ha
    have htot := total_pos_of_mem_itemCounts (mem_fpSortedItems p hp).1
    have h1 := one_le_minSupportCount hms htot
    omega

/-- C6: for frequent itemsets produced by either miner over the same
basket list, every antecedent the rule generator forms has a strictly
positive basket count, so no emitted rule's confidence is computed by a
division by a zero antecedent support.  `min_support` is a valid
parameter, i.e. positive. -/
theorem no_zero_antecedent_support (ts : List (List Item)) (ms mc : ℚ)
    (hts : ∀ t ∈ ts, t.Nodup) (hms : 0 < ms) :
    (∀ f ∈ aprioriAlgorithm ts ms, ∀ i : Nat,
        0 < countContaining ts (maskSplit f.itemset i).1) ∧
    (∀ f ∈ fpGrowthAlgorithm ts ms, ∀ i : Nat,
        0 < countContaining ts (maskSplit f.itemset i).1) ∧
    (∀ r ∈ generateAssociationRules (aprioriAlgorithm ts ms) mc ts,
        0 < countContaining ts r.antecedent) ∧
    (∀ r ∈ generateAssociationRules (fpGrowthAlgorithm ts ms) mc ts,
        0 < countContaining ts r.antecedent) := by
  have key : ∀ f : FrequentItemset, 1 ≤ f.count →
      f.count = countContaining ts f.itemset →
      ∀ a : List Item, (∀ x ∈ a, x ∈ f.itemset) → 0 < countContaining ts a := by
    intro f h1 h2 a ha
    have h3 := countContaining_mono ts ha
    omega
  have hap : ∀ f ∈ aprioriAlgorithm ts ms, ∀ i : Nat,
      0 < countContaining ts (maskSplit f.itemset i).1 := by
    intro f hf i
    exact key f (apriori_count_pos ts ms f hf) (apriori_sound ts ms hts f hf).2.1 _
      (maskSplit_subset_left f.itemset i)
  have hfp : ∀ f ∈ fpGrowthAlgorithm ts ms, ∀ i : Nat,
      0 < countContaining ts (maskSplit f.itemset i).1 := by
    intro f hf i
    exact key f (fpGrowth_count_pos ts hms f hf) (fpGrowth_sound ts ms hts f hf).2.1 _
      (maskSplit_subset_left f.itemset i)
  refine ⟨hap, hfp, ?_, ?_⟩
  · intro r hr
    obtain ⟨it, hit, -, hr'⟩ := mem_generateAssociationRules hr
    obtain ⟨i, -, -, -, hre⟩ := mem_rulesForItemset hr'
    subst hre
    show 0 < countContaining ts (sortS (maskSplit it.itemset i).1)
    rw [countContaining_sortS]
    exact hap it hit i
  · intro r hr
    obtain ⟨it, hit, -, hr'⟩ := mem_generateAssociationRules hr
    obtain ⟨i, -, -, -, hre⟩ := mem_rulesForItemset hr'
    subst hre
    show 0 < countContaining ts (sortS (maskSplit it.itemset i).1)
    rw [countContaining_sortS]
    exact hfp it hit i

/-- Witness for C6 at a concrete basket list and thresholds. -/
theorem no_zero_antecedent_support_witness :
    ((∀ t ∈ ([["a", "b"]] : List (List Item)), t.Nodup) ∧ (0 : ℚ) < 1/2) ∧
    ((∀ f ∈ aprioriAlgorithm [["a", "b"]] (1/2), ∀ i : Nat,
        0 < countContaining [["a", "b"]] (maskSplit f.itemset i).1) ∧
    (∀ f ∈ fpGrowthAlgorithm [["a", "b"]] (1/2), ∀ i : Nat,
        0 < countContaining [["a", "b"]] (maskSplit f.itemset i).1) ∧
    (∀ r ∈ generateAssociationRules (aprioriAlgorithm [["a", "b"]] (1/2)) (1/2) [["a", "b"]],
        0 < countContaining [["a", "b"]] r.antecedent) ∧
    (∀ r ∈ generateAssociationRules (fpGrowthAlgorithm [["a", "b"]] (1/2)) (1/2) [["a", "b"]],
        0 < countContaining [["a", "b"]] r.antecedent)) :=
  ⟨⟨by decide, by norm_num⟩,
    no_zero_antecedent_support [["a", "b"]] (1/2) (1/2) (by decide) (by norm_num)⟩

/-! ## The lift formula -/

/-- C10 as stated fails: an input itemset with `count = 0` (its support,
0/2, still equals count over totalBaskets) yields an emitted rule whose
lift is neither totalBaskets/antecedentCount nor at least 1. -/
theorem lift_reciprocal_cx :
    ∃ r ∈ generateAssociationRules [⟨["A", "B"], 0, 0⟩] 0 [["A"], ["B"]],
      ¬(r.lift = (([["A"], ["B"]] : List (List Item)).length : ℚ)
          / (countContaining [["A"], ["B"]] r.antecedent : ℚ) ∧ 1 ≤ r.lift) := by
  have hrules : generateAssociationRules [⟨["A", "B"], 0, 0⟩] 0 [["A"], ["B"]]
      = [⟨["A"], ["B"], 0, 0, 0⟩, ⟨["B"], ["A"], 0, 0, 0⟩] := by
    norm_num [generateAssociationRules, rulesForItemset, maskSplit, countContaining, sortS,
      List.insertionSort, List.orderedInsert, List.range, List.filterMap, List.filter]
  refine ⟨⟨["A"], ["B"], 0, 0, 0⟩, ?_, ?_⟩
  · rw [hrules]
    exact List.mem_cons_self _ _
  · rintro ⟨-, h2⟩
    norm_num at h2

/-- C10 amended: for itemsets whose count is positive, equals the number
of baskets containing all their items, and whose support is count over
totalBaskets, every emitted rule's lift is totalBaskets over the
antecedent's count — the reciprocal of the antecedent's support — and
hence at least 1. -/
theorem lift_reciprocal (ts : List (List Item)) (fis : List FrequentItemset) (mc : ℚ)
    (hfis : ∀ it ∈ fis, 1 ≤ it.count ∧ it.count = countContaining ts it.itemset ∧
        it.support = (it.count : ℚ) / (ts.length : ℚ)) :
    ∀ r ∈ generateAssociationRules fis mc ts,
      r.lift = (ts.length : ℚ) / (countContaining ts r.antecedent : ℚ) ∧
      1 ≤ r.lift := by
  intro r hr
  obtain ⟨it, hit, -, hr'⟩ := mem_generateAssociationRules hr
  obtain ⟨i, -, -, -, hre⟩ := mem_rulesForItemset hr'
  subst hre
  obtain ⟨hcnt1, hcnteq, hsup⟩ := hfis it hit
  have hccle := countContaining_mono ts (maskSplit_subset_left it.itemset i)
  have hccpos : 0 < countContaining ts (maskSplit it.itemset i).1 := by omega
  have hcclen := countContaining_le_length ts (maskSplit it.itemset i).1
  have htot : 0 < ts.length := lt_of_lt_of_le hccpos hcclen
  have h1 : (it.count : ℚ) ≠ 0 := by
    have h : (0 : ℚ) < (it.count : ℚ) := by exact_mod_cast hcnt1
    exact ne_of_gt h
  have h2 : (countContaining ts (maskSplit it.itemset i).1 : ℚ) ≠ 0 := by
    have h : (0 : ℚ) < (countContaining ts (maskSplit it.itemset i).1 : ℚ) := by
      exact_mod_cast hccpos
    exact ne_of_gt h
  have h3 : (ts.length : ℚ) ≠ 0 := by
    have h : (0 : ℚ) < (ts.length : ℚ) := by exact_mod_cast htot
    exact ne_of_gt h
  have heq : it.support
      / ((countContaining ts (maskSplit it.itemset i).1 : ℚ) / (ts.length : ℚ))
      / ((it.count : ℚ) / (ts.length : ℚ))
      = (ts.length : ℚ) / (countContaining ts (maskSplit it.itemset i).1 : ℚ) := by
    rw [hsup]
    field_simp
    ring
  dsimp only
  rw [countContaining_sortS, heq]
  refine ⟨rfl, ?_⟩
  rw [one_le_div (by exact_mod_cast hccpos)]
  exact_mod_cast hcclen

/-- Witness for the amended C10 at a concrete itemset list and baskets. -/
theorem lift_reciprocal_witness :
    (∀ it ∈ ([⟨["A", "B"], 1/2, 1⟩] : List FrequentItemset),
        1 ≤ it.count ∧ it.count = countContaining [["A", "B"], ["A"]] it.itemset ∧
        it.support = (it.count : ℚ) / (([["A", "B"], ["A"]] : List (List Item)).length : ℚ)) ∧
    (∀ r ∈ generateAssociationRules [⟨["A", "B"], 1/2, 1⟩] (1/2) [["A", "B"], ["A"]],
        r.lift = (([["A", "B"], ["A"]] : List (List Item)).length : ℚ)
            / (countContaining [["A", "B"], ["A"]] r.antecedent : ℚ) ∧
        1 ≤ r.lift) :=
  ⟨by
    intro it hit
    rw [List.mem_singleton] at hit
    subst hit
    refine ⟨by norm_num, by norm_num [countContaining]; decide, by norm_num⟩,
   lift_reciprocal [["A", "B"], ["A"]] [⟨["A", "B"], 1/2, 1⟩] (1/2) (by
    intro it hit
    rw [List.mem_singleton] at hit
    subst hit
    refine ⟨by norm_num, by norm_num [countContaining]; decide, by norm_num⟩)⟩

/-! ## Concrete scenarios -/

/-- Full evaluation of the Apriori miner on the one-basket scenario of the
specification. -/
theorem apriori_singleBasket_eval :
    aprioriAlgorithm [["Bread", "Milk", "Butter"]] (1/2) =
      [⟨["Bread"], 1, 1⟩, ⟨["Milk"], 1, 1⟩, ⟨["Butter"], 1, 1⟩,
       ⟨["Bread", "Milk"], 1, 1⟩, ⟨["Bread", "Butter"], 1, 1⟩,
       ⟨["Butter", "Milk"], 1, 1⟩, ⟨["Bread", "Butter", "Milk"], 1, 1⟩] := by
  have e1 : (['B', 'r', 'e', 'a', 'd'] : List Char) ≤ ['M', 'i', 'l', 'k'] := by decide
  have e2 : (['B', 'r', 'e', 'a', 'd'] : List Char) ≤ ['B', 'u', 't', 't', 'e', 'r'] := by
    decide
  have e3 : ¬((['M', 'i', 'l', 'k'] : List Char) ≤ ['B', 'u', 't', 't', 'e', 'r']) := by
    decide
  have e4 : (['B', 'u', 't', 't', 'e', 'r'] : List Char) ≤ ['M', 'i', 'l', 'k'] := by decide
  have n1 : ("Bread" : Item) ≠ "Milk" := by decide
  have n2 : ("Bread" : Item) ≠ "Butter" := by decide
  have n3 : ("Milk" : Item) ≠ "Butter" := by decide
  have hmsc : minSupportCount (1/2) 1 = 1 := by
    unfold minSupportCount
    rw [show ((1 : ℕ) : ℚ) = 1 from rfl, mul_one, Int.ceil_eq_iff]
    norm_num
  norm_num [aprioriAlgorithm, hmsc, level1, levelK, itemCounts, bump, candidateCounts,
    generateCandidates, allPairs, sortS, List.insertionSort, List.orderedInsert,
    countContaining, Function.comp, List.filterMap_cons,
    e1, e2, e3, e4, n1, n2, n3, n1.symm, n2.symm, n3.symm]

/-- C4 counterexample: on the one-basket scenario the Apriori miner also
returns a 3-itemset, so the claimed six itemsets are not the whole
output. -/
theorem apriori_single_basket_cx :
    ∃ f ∈ aprioriAlgorithm [["Bread", "Milk", "Butter"]] (1/2),
      f.itemset.length = 3 := by
  rw [apriori_singleBasket_eval]
  exact ⟨⟨["Bread", "Butter", "Milk"], 1, 1⟩, by simp, rfl⟩

/-- C4 amended: on the single basket {Bread, Milk, Butter} with
min_support 0.5, Apriori returns exactly the three singletons, the three
2-itemsets and the single 3-itemset {Bread, Butter, Milk}, all with
support 1.0 and count 1, in this order. -/
theorem apriori_single_basket :
    aprioriAlgorithm [["Bread", "Milk", "Butter"]] (1/2) =
      [⟨["Bread"], 1, 1⟩, ⟨["Milk"], 1, 1⟩, ⟨["Butter"], 1, 1⟩,
       ⟨["Bread", "Milk"], 1, 1⟩, ⟨["Bread", "Butter"], 1, 1⟩,
       ⟨["Butter", "Milk"], 1, 1⟩, ⟨["Bread", "Butter", "Milk"], 1, 1⟩] :=
  apriori_singleBasket_eval

/-- C5 counterexample: `min_support = 0` passes the parameter-validation
boundary (`z.number().min(0).max(1)` is inclusive at 0), so a value the
claim says is rejected is in fact accepted. -/
theorem validation_accepts_zero : miningParametersValid 0 (1/2) = true := by
  unfold miningParametersValid validNumber01
  simp only [Bool.and_eq_true, decide_eq_true_eq]
  norm_num

/-- C5 amended: the validation boundary accepts exactly the parameter
pairs with both values in the closed interval [0, 1]; in particular 0 is
accepted, not rejected. -/
theorem validation_boundary (s c : ℚ) :
    miningParametersValid s c = true ↔ (0 ≤ s ∧ s ≤ 1 ∧ 0 ≤ c ∧ c ≤ 1) := by
  unfold miningParametersValid validNumber01
  simp only [Bool.and_eq_true, decide_eq_true_eq]
  tauto

/-- C7: on the empty basket list both miners return the empty itemset
list and the rule generator applied to their outputs returns the empty
rule list, with no division by zero performed. -/
theorem empty_baskets (ms mc : ℚ) :
    aprioriAlgorithm [] ms = [] ∧ fpGrowthAlgorithm [] ms = [] ∧
    generateAssociationRules (aprioriAlgorithm [] ms) mc [] = [] ∧
    generateAssociationRules (fpGrowthAlgorithm [] ms) mc [] = [] :=
  ⟨rfl, rfl, rfl, rfl⟩

/-- C8: the comparison engine's metrics are the fp_growth-minus-apriori
differences of time, itemset count and rule count; `faster_algorithm` is
`apriori` exactly when the apriori time is strictly smaller (so a tie
yields `fp_growth`), and both underlying results are retained. -/
theorem comparison_metrics_correct (a f : MiningResultCore) :
    (compareMiningResults a f).comparison_metrics.execution_time_difference
      = (f.execution_time_ms : ℤ) - (a.execution_time_ms : ℤ) ∧
    (compareMiningResults a f).comparison_metrics.itemsets_count_difference
      = (f.frequent_itemsets.length : ℤ) - (a.frequent_itemsets.length : ℤ) ∧
    (compareMiningResults a f).comparison_metrics.rules_count_difference
      = (f.association_rules.length : ℤ) - (a.association_rules.length : ℤ) ∧
    ((compareMiningResults a f).comparison_metrics.faster_algorithm
        = MiningAlgorithm.apriori ↔ a.execution_time_ms < f.execution_time_ms) ∧
    ((compareMiningResults a f).comparison_metrics.faster_algorithm
        = MiningAlgorithm.fp_growth ↔ ¬a.execution_time_ms < f.execution_time_ms) ∧
    (compareMiningResults a f).apriori_result = a ∧
    (compareMiningResults a f).fp_growth_result = f := by
  refine ⟨rfl, rfl, rfl, ?_, ?_, rfl, rfl⟩ <;>
    by_cases h : a.execution_time_ms < f.execution_time_ms <;>
      simp [compareMiningResults, h]

/-! ## FP-Growth as the size-bounded refinement of Apriori -/

theorem fpPairs_eq_filterMap (ts : List (List Item)) (ms : ℚ) :
    fpPairs ts ms = (allPairs ((fpSortedItems ts ms).map Prod.fst)).filterMap
      (fpPairFn ts (minSupportCount ms ts.length)) := rfl

theorem fpPairFn_symm (ts : List (List Item)) (msc : ℤ) (a b : Item) :
    fpPairFn ts msc (a, b) = fpPairFn ts msc (b, a) := by
  have hcc : countContaining ts [a, b] = countContaining ts [b, a] :=
    countContaining_congr ts (List.Perm.swap b a [])
  have hss : sortS [a, b] = sortS [b, a] :=
    sortS_eq_sortS_of_perm (List.Perm.swap b a [])
  unfold fpPairFn
  dsimp only
  rw [hcc, hss]

theorem allPairs_filterMap_perm {α β : Type} (g : α × α → Option β)
    (hsym : ∀ a b, g (a, b) = g (b, a)) {l1 l2 : List α} (h : l1.Perm l2) :
    ((allPairs l1).filterMap g).Perm ((allPairs l2).filterMap g) := by
  induction h with
  | nil => exact List.Perm.refl _
  | cons x h ih =>
    simp only [allPairs, List.filterMap_append, List.filterMap_map]
    exact List.Perm.append (h.filterMap _) ih
  | swap x y l =>
    cases hg : g (x, y) with
    | none =>
      simp only [allPairs, List.map_cons, List.filterMap_append, List.filterMap_cons,
        hsym y x, hg]
      try simp only [List.append_eq]
      rw [← List.append_assoc, ← List.append_assoc]
      exact List.perm_append_comm.append_right _
    | some c =>
      simp only [allPairs, List.map_cons, List.filterMap_append, List.filterMap_cons,
        hsym y x, hg]
      refine List.Perm.cons c ?_
      try simp only [List.append_eq]
      rw [← List.append_assoc, ← List.append_assoc]
      exact List.perm_append_comm.append_right _
  | trans h1 h2 ih1 ih2 => exact ih1.trans ih2

theorem fpSingles_perm_apF1 (ts : List (List Item)) (ms : ℚ) :
    (fpSingles ts ms).Perm (apF1 ts ms) := by
  rw [apF1_eq]
  unfold fpSingles fpSortedItems
  exact ((List.perm_insertionSort _ _).filter _).map _

theorem fpItems_perm_apItems (ts : List (List Item)) (ms : ℚ) :
    ((fpSortedItems ts ms).map Prod.fst).Perm (apItems ts ms) := by
  unfold fpSortedItems apItems
  exact ((List.perm_insertionSort _ _).filter _).map _

theorem apF2_nodup (ts : List (List Item)) (ms : ℚ) : (apF2 ts ms).Nodup := by
  rw [apF2, levelK_eq]
  apply List.Nodup.map
  · intro p q hpq
    simp only [FrequentItemset.mk.injEq] at hpq
    exact Prod.ext hpq.1 hpq.2.2
  · exact (List.Nodup.of_map Prod.fst (candidateCounts_keys_nodup ts _)).filter _

theorem apF2_perm_canonical (ts : List (List Item)) (ms : ℚ)
    (hmsc1 : 1 ≤ minSupportCount ms ts.length) :
    (apF2 ts ms).Perm (((apC2 ts ms).filter
        (fun c => decide (minSupportCount ms ts.length ≤ (countContaining ts c : ℤ)))).map
      (fun c => ⟨c, (countContaining ts c : ℚ) / (ts.length : ℚ),
        countContaining ts c⟩)) := by
  have hndC := apC2_nodup ts ms
  have hsC : ∀ c ∈ apC2 ts ms, sortS c = c := fun c hc => (apC2_shape ts ms c hc).2.2.2
  have hnd1 := apF2_nodup ts ms
  have hnd2 : (((apC2 ts ms).filter
      (fun c => decide (minSupportCount ms ts.length ≤ (countContaining ts c : ℤ)))).map
      (fun c => (⟨c, (countContaining ts c : ℚ) / (ts.length : ℚ),
        countContaining ts c⟩ : FrequentItemset))).Nodup := by
    apply List.Nodup.map
    · intro c d hcd
      simpa using (FrequentItemset.mk.injEq _ _ _ _ _ _ ▸ hcd).1
    · exact hndC.filter _
  rw [List.perm_ext_iff_of_nodup hnd1 hnd2]
  intro f
  constructor
  · intro hf
    rw [apF2] at hf
    have h := mem_levelK hndC hsC f hf
    apply List.mem_map.mpr
    refine ⟨f.itemset, List.mem_filter.mpr ⟨h.1, ?_⟩, ?_⟩
    · simp only [decide_eq_true_eq]
      rw [← h.2.1]
      exact h.2.2.2.2
    · obtain ⟨its, sup, cnt⟩ := f
      simp only at h
      rw [← h.2.1, ← h.2.2.2.1]
  · intro hf
    obtain ⟨c, hc, rfl⟩ := List.mem_map.mp hf
    have hcf := List.mem_filter.mp hc
    have hcc : minSupportCount ms ts.length ≤ (countContaining ts c : ℤ) := by
      simpa using hcf.2
    rw [apF2, levelK_eq]
    apply List.mem_map.mpr
    refine ⟨(c, countContaining ts c), List.mem_filter.mpr ⟨?_, by simpa using hcc⟩, rfl⟩
    apply (mem_candidateCounts_iff ts _ hndC hsC _).mpr
    refine ⟨hcf.1, ?_, rfl⟩
    show 1 ≤ countContaining ts c
    omega

theorem apF2_perm_fpPairFn (ts : List (List Item)) (ms : ℚ)
    (hmsc1 : 1 ≤ minSupportCount ms ts.length) :
    (apF2 ts ms).Perm ((allPairs (apItems ts ms)).filterMap
      (fpPairFn ts (minSupportCount ms ts.length))) := by
  refine (apF2_perm_canonical ts ms hmsc1).trans ?_
  have heq : (((apC2 ts ms).filter
      (fun c => decide (minSupportCount ms ts.length ≤ (countContaining ts c : ℤ)))).map
      (fun c => (⟨c, (countContaining ts c : ℚ) / (ts.length : ℚ),
        countContaining ts c⟩ : FrequentItemset)))
      = (allPairs (apItems ts ms)).filterMap
        (fpPairFn ts (minSupportCount ms ts.length)) := by
    rw [apC2_eq, List.filter_map, List.map_map]
    have h1 : (allPairs (apItems ts ms)).filter
        ((fun c => decide (minSupportCount ms ts.length ≤ (countContaining ts c : ℤ)))
          ∘ (fun p => sortS [p.1, p.2]))
        = (allPairs (apItems ts ms)).filter (fun p =>
          decide (minSupportCount ms ts.length
            ≤ (countContaining ts (sortS [p.1, p.2]) : ℤ))) :=
      List.filter_congr (fun a _ => rfl)
    have h2 : ((fun c => (⟨c, (countContaining ts c : ℚ) / (ts.length : ℚ),
          countContaining ts c⟩ : FrequentItemset)) ∘ (fun p : Item × Item => sortS [p.1, p.2]))
        = fun p : Item × Item => (⟨sortS [p.1, p.2],
            (countContaining ts (sortS [p.1, p.2]) : ℚ) / (ts.length : ℚ),
            countContaining ts (sortS [p.1, p.2])⟩ : FrequentItemset) := rfl
    rw [h1, h2, ← filterMap_if_eq (allPairs (apItems ts ms))
      (fun p => minSupportCount ms ts.length
        ≤ (countContaining ts (sortS [p.1, p.2]) : ℤ))
      (fun p => (⟨sortS [p.1, p.2],
        (countContaining ts (sortS [p.1, p.2]) : ℚ) / (ts.length : ℚ),
        countContaining ts (sortS [p.1, p.2])⟩ : FrequentItemset))]
    congr 1
    funext p
    unfold fpPairFn
    rw [countContaining_sortS]
  rw [heq]

theorem fpPairs_perm_apF2 (ts : List (List Item)) (ms : ℚ)
    (hmsc1 : 1 ≤ minSupportCount ms ts.length) :
    (fpPairs ts ms).Perm (apF2 ts ms) := by
  rw [fpPairs_eq_filterMap]
  refine (allPairs_filterMap_perm _ (fpPairFn_symm ts _)
    (fpItems_perm_apItems ts ms)).trans ?_
  exact (apF2_perm_fpPairFn ts ms hmsc1).symm

/-- C9: for a valid min_support, the FP-Growth-style miner's output is,
up to order, exactly the itemsets of size at most 2 of the Apriori
miner's output, with identical itemsets, supports and counts. -/
theorem fp_growth_refines_apriori (ts : List (List Item)) (ms : ℚ)
    (h0 : 0 < ms) (h1 : ms ≤ 1) :
    (fpGrowthAlgorithm ts ms).Perm
      ((aprioriAlgorithm ts ms).filter (fun f => decide (f.itemset.length ≤ 2))) := by
  by_cases hts : ts = []
  · subst hts
    exact List.Perm.nil
  · have htot : 0 < ts.length := List.length_pos.mpr hts
    have hmsc1 := one_le_minSupportCount h0 htot
    rw [aprioriAlgorithm_eq, fpGrowthAlgorithm_eq, List.filter_append, List.filter_append]
    have hf1 : (apF1 ts ms).filter (fun f => decide (f.itemset.length ≤ 2)) = apF1 ts ms := by
      apply List.filter_eq_self.mpr
      intro f hf
      obtain ⟨⟨i, hi⟩, -, -, -, -⟩ := mem_apF1 f hf
      simp [hi]
    have hf2 : (apF2 ts ms).filter (fun f => decide (f.itemset.length ≤ 2)) = apF2 ts ms := by
      apply List.filter_eq_self.mpr
      intro f hf
      rw [apF2] at hf
      have h := mem_levelK (apC2_nodup ts ms)
        (fun c hc => (apC2_shape ts ms c hc).2.2.2) f hf
      simp [(apC2_shape ts ms f.itemset h.1).2.1]
    have hf3 : (apF3 ts ms).filter (fun f => decide (f.itemset.length ≤ 2)) = [] := by
      apply List.filter_eq_nil_iff.mpr
      intro f hf
      rw [apF3] at hf
      have h := mem_levelK (apC3_nodup ts ms)
        (fun c hc => (apC3_shape ts ms c hc).2.2) f hf
      simp [(apC3_shape ts ms f.itemset h.1).2.1]
    rw [hf1, hf2, hf3, List.append_nil]
    exact List.Perm.append (fpSingles_perm_apF1 ts ms) (fpPairs_perm_apF2 ts ms hmsc1)

/-- Witness for C9 at a concrete basket list and support threshold. -/
theorem fp_growth_refines_apriori_witness :
    ((0 : ℚ) < 1/2 ∧ (1/2 : ℚ) ≤ 1) ∧
    (fpGrowthAlgorithm [["a", "b"], ["a"]] (1/2)).Perm
      ((aprioriAlgorithm [["a", "b"], ["a"]] (1/2)).filter
        (fun f => decide (f.itemset.length ≤ 2))) :=
  ⟨⟨by norm_num, by norm_num⟩,
    fp_growth_refines_apriori [["a", "b"], ["a"]] (1/2) (by norm_num) (by norm_num)⟩

end Mining
